import Mathlib

/-!
# Verification of the terminal glyph rendering engine (`vo_tct.c`)

A shallow embedding of the rendering engine of `src/video/out/vo_tct.c`:
the xterm-256 color quantizer (`rgb_to_x256`), the escape-sequence encoder
(`print_seq1` / `print_seq3` together with the per-byte lookup table built
in `preinit`), the block-element catalog (`block_elements`), the block
fitter (`best_fg_bg`, `guess_best_block_element`) and the three frame
writers (`write_plain`, `write_half_blocks`, `write_all_blocks`).

Machine integers are modelled by `Nat` / `Int`:
* C `unsigned char` values are `Nat` together with a `< 256` validity
  predicate; stores into `unsigned char` apply `% 256`.
* C `unsigned int` accumulators in `best_fg_bg` never exceed
  `64 * 255 * 255 < 2 ^ 32` on valid pixel data (proved below), so plain
  `Nat` addition models them; the six subtractions are modelled by
  `wrapSub`, the exact wrap-around semantics of unsigned subtraction,
  and the final accumulated loss carries an explicit `% 2 ^ 32`.
* C `int` division (truncation toward zero) is `Int.tdiv`.

Output is modelled as the list of bytes (`List Nat`) written to stdout.
-/

namespace VoTct

/-! ## Pixels -/

/-- `struct rgb_color` of `vo_tct.c`: three `unsigned char` channels. -/
structure rgb_color where
  r : Nat
  g : Nat
  b : Nat
deriving DecidableEq

/-- Channel values of a C `unsigned char` pixel are below 256. -/
def rgb_color.valid (c : rgb_color) : Prop :=
  c.r < 256 ∧ c.g < 256 ∧ c.b < 256

instance (c : rgb_color) : Decidable c.valid := by
  unfold rgb_color.valid; infer_instance

/-- `get_rgb`: read one BGR24 pixel (`b = base[0]`, `g = base[1]`,
`r = base[2]`) from the source byte buffer at a byte offset. -/
def get_rgb (source : Nat → Nat) (off : Nat) : rgb_color :=
  ⟨source (off + 2), source (off + 1), source off⟩

/-! ## ColorQuantizer: `rgb_to_x256` -/

/-- The `v2ci` macro: nearest 0-based cube coordinate of one channel.
All quantities are nonnegative C `int`s, so `Nat` division is exact. -/
def v2ci (v : Nat) : Nat :=
  if v < 48 then 0 else if v < 115 then 1 else (v - 35) / 40

/-- The `i2cv` table `{0, 0x5f, 0x87, 0xaf, 0xd7, 0xff}`: RGB value
represented by a cube coordinate.  Indices above 5 never occur in the
program (reading them in C would be out of bounds). -/
def i2cv : Nat → Nat
  | 0 => 0x00
  | 1 => 0x5f
  | 2 => 0x87
  | 3 => 0xaf
  | 4 => 0xd7
  | 5 => 0xff
  | _ => 0

/-- The `color_index()` macro: `36 * ir + 6 * ig + ib`. -/
def color_index (ir ig ib : Nat) : Nat := 36 * ir + 6 * ig + ib

/-- `average = (r + g + b) / 3` (nonnegative C `int` division). -/
def averageRGB (r g b : Nat) : Nat := (r + g + b) / 3

/-- `gray_index = average > 238 ? 23 : (average - 3) / 10`.
`average - 3` may be negative in C, and C `int` division truncates
toward zero, hence `Int.tdiv`. -/
def gray_index (avg : Nat) : Int :=
  if 238 < avg then 23 else Int.tdiv ((avg : Int) - 3) 10

/-- The `dist_square` macro: squared Euclidean distance. -/
def dist_square (A B C a b c : Int) : Int :=
  (A - a) * (A - a) + (B - b) * (B - b) + (C - c) * (C - c)

/-- `color_err`: squared distance from the input to the reconstructed
color-cube candidate. -/
def color_err (r g b : Nat) : Int :=
  dist_square (i2cv (v2ci r)) (i2cv (v2ci g)) (i2cv (v2ci b)) r g b

/-- `gray_err`: squared distance from the input to the reconstructed
grayscale candidate `gv = 8 + 10 * gray_index`. -/
def gray_err (r g b : Nat) : Int :=
  dist_square (8 + 10 * gray_index (averageRGB r g b))
    (8 + 10 * gray_index (averageRGB r g b))
    (8 + 10 * gray_index (averageRGB r g b)) r g b

/-- `rgb_to_x256`: convert RGB24 to an xterm-256 palette index. -/
def rgb_to_x256 (r g b : Nat) : Int :=
  if color_err r g b ≤ gray_err r g b then
    16 + (color_index (v2ci r) (v2ci g) (v2ci b) : Int)
  else
    232 + gray_index (averageRGB r g b)

/-! ## SequenceEncoder: the lookup table and `print_seq1` / `print_seq3` -/

/-- ASCII decimal digits of `n`, most significant first, as bytes
(the output of `sprintf` with `%d` on a nonnegative value).  The first
argument is fuel; `n + 1` units always suffice. -/
def decDigitsAux : Nat → Nat → List Nat
  | 0, _ => []
  | fuel + 1, n =>
    if n < 10 then [48 + n] else decDigitsAux fuel (n / 10) ++ [48 + n % 10]

/-- ASCII decimal representation of a nonnegative number. -/
def decDigits (n : Nat) : List Nat := decDigitsAux (n + 1) n

/-- ASCII decimal representation of a C `int` (`printf` `%d`):
a `'-'` byte (45) followed by the digits of the absolute value when
negative. -/
def decInt (i : Int) : List Nat :=
  if i < 0 then 45 :: decDigits i.natAbs else decDigits i.toNat

/-- The bytes `sprintf(buff, ";%d", i)` leaves in `buff` (excluding the
terminating NUL): a `';'` byte (59) followed by the decimal digits. -/
def lut_raw (i : Nat) : List Nat := 59 :: decDigits i

/-- `lut[i].width`: the value returned by `sprintf`, i.e. the byte length
of the formatted text. -/
def lut_width (i : Nat) : Nat := (lut_raw i).length

/-- `lut[i].str`: `preinit` copies exactly 4 bytes of `buff` into the
entry, so only the first 4 formatted bytes are retained. -/
def lut_str (i : Nat) : List Nat := (lut_raw i).take 4

/-- The bytes `fwrite(lut[c].str, lut[c].width, 1, stdout)` emits:
`width` bytes read from the stored 4-byte array. -/
def lut_bytes (i : Nat) : List Nat := (lut_str i).take (lut_width i)

/-- `print_seq3(lut, prefix, r, g, b)`: prefix bytes, three lookup-table
fragments, then `'m'` (109).  The arguments are `uint8_t`, so the model
reduces them `% 256` as the C call-site conversion does. -/
def print_seq3 (pre : List Nat) (r g b : Nat) : List Nat :=
  pre ++ lut_bytes (r % 256) ++ lut_bytes (g % 256) ++ lut_bytes (b % 256) ++ [109]

/-- `print_seq1(lut, prefix, c)`: prefix bytes, one lookup-table fragment,
then `'m'` (109). -/
def print_seq1 (pre : List Nat) (c : Nat) : List Nat :=
  pre ++ lut_bytes (c % 256) ++ [109]

/-- Conversion of a C `int` to `uint8_t` (used when the `int` result of
`rgb_to_x256` is passed to `print_seq1`): reduction modulo 256. -/
def toByte (i : Int) : Nat := (Int.emod i 256).toNat

/-- `"\033[48;2"` (true-color background prefix). -/
def ESC_COLOR_BG : List Nat := [27, 91, 52, 56, 59, 50]

/-- `"\033[38;2"` (true-color foreground prefix). -/
def ESC_COLOR_FG : List Nat := [27, 91, 51, 56, 59, 50]

/-- `"\033[48;5"` (256-color background prefix). -/
def ESC_COLOR256_BG : List Nat := [27, 91, 52, 56, 59, 53]

/-- `"\033[38;5"` (256-color foreground prefix). -/
def ESC_COLOR256_FG : List Nat := [27, 91, 51, 56, 59, 53]

/-- `"\033[0m"` (`ESC_CLEAR_COLORS`). -/
def ESC_CLEAR_COLORS : List Nat := [27, 91, 48, 109]

/-- `printf(ESC_GOTOXY, row, col)` with `ESC_GOTOXY = "\033[%d;%df"`:
the cursor-positioning sequence. -/
def gotoxy (row col : Int) : List Nat :=
  [27, 91] ++ decInt row ++ [59] ++ decInt col ++ [102]

/-- UTF-8 bytes of U+2584 LOWER HALF BLOCK (`"\xe2\x96\x84"`). -/
def LOWER_HALF_UTF8 : List Nat := [0xe2, 0x96, 0x84]

/-! ## GlyphLibrary: the block-element catalog -/

/-- `struct block_element`: a 64-bit coverage bitmap over the 8×8 window
and the UTF-8 bytes of the glyph. -/
structure block_element where
  bitmap : Nat
  utf8 : List Nat
deriving DecidableEq

/-- The 19-entry catalog `block_elements`, in enumeration order
(`LOWER_HALF`, `LEFT_HALF`, the four quadrants, the diagonal pair, then
quarter-, three-quarter- and eighth-step coverage along each axis).
Bitmap literals are the binary constants of the C initializer. -/
def block_elements : List block_element := [
  -- LOWER_HALF "▄"
  ⟨0b0000000000000000000000000000000011111111111111111111111111111111, [0xe2, 0x96, 0x84]⟩,
  -- LEFT_HALF "▌"
  ⟨0b1111000011110000111100001111000011110000111100001111000011110000, [0xe2, 0x96, 0x8c]⟩,
  -- QUADRANT_LOWER_LEFT "▖"
  ⟨0b0000000000000000000000000000000011110000111100001111000011110000, [0xe2, 0x96, 0x96]⟩,
  -- QUADRANT_LOWER_RIGHT "▗"
  ⟨0b0000000000000000000000000000000000001111000011110000111100001111, [0xe2, 0x96, 0x97]⟩,
  -- QUADRANT_UPPER_LEFT "▘"
  ⟨0b1111000011110000111100001111000000000000000000000000000000000000, [0xe2, 0x96, 0x98]⟩,
  -- QUADRANT_UPPER_RIGHT "▝"
  ⟨0b0000111100001111000011110000111100000000000000000000000000000000, [0xe2, 0x96, 0x9d]⟩,
  -- QUADRANT_UPPER_RIGHT_LOWER_LEFT "▞"
  ⟨0b0000111100001111000011110000111111110000111100001111000011110000, [0xe2, 0x96, 0x9e]⟩,
  -- LOWER_ONE_QUARTER "▂"
  ⟨0b0000000000000000000000000000000000000000000000001111111111111111, [0xe2, 0x96, 0x82]⟩,
  -- LOWER_THREE_QUARTERS "▆"
  ⟨0b0000000000000000111111111111111111111111111111111111111111111111, [0xe2, 0x96, 0x86]⟩,
  -- LEFT_ONE_QUARTER "▎"
  ⟨0b1100000011000000110000001100000011000000110000001100000011000000, [0xe2, 0x96, 0x8e]⟩,
  -- LEFT_THREE_QUARTERS "▊"
  ⟨0b1111110011111100111111001111110011111100111111001111110011111100, [0xe2, 0x96, 0x8a]⟩,
  -- LOWER_ONE_EIGHTH "▁"
  ⟨0b0000000000000000000000000000000000000000000000000000000011111111, [0xe2, 0x96, 0x81]⟩,
  -- LOWER_THREE_EIGHTHS "▃"
  ⟨0b0000000000000000000000000000000000000000111111111111111111111111, [0xe2, 0x96, 0x83]⟩,
  -- LOWER_FIVE_EIGHTHS "▅"
  ⟨0b0000000000000000000000001111111111111111111111111111111111111111, [0xe2, 0x96, 0x85]⟩,
  -- LOWER_SEVEN_EIGHTHS "▇"
  ⟨0b0000000011111111111111111111111111111111111111111111111111111111, [0xe2, 0x96, 0x87]⟩,
  -- LEFT_ONE_EIGHTH "▏"
  ⟨0b1000000010000000100000001000000010000000100000001000000010000000, [0xe2, 0x96, 0x8f]⟩,
  -- LEFT_THREE_EIGHTHS "▍"
  ⟨0b1110000011100000111000001110000011100000111000001110000011100000, [0xe2, 0x96, 0x8d]⟩,
  -- LEFT_FIVE_EIGHTHS "▋"
  ⟨0b1111100011111000111110001111100011111000111110001111100011111000, [0xe2, 0x96, 0x8b]⟩,
  -- LEFT_SEVEN_EIGHTHS "▉"
  ⟨0b1111111011111110111111101111111011111110111111101111111011111110, [0xe2, 0x96, 0x89]⟩]

/-- `NUM_ELEMENTS` of the block-element enumeration. -/
def NUM_ELEMENTS : Nat := 19

/-- Index of `LOWER_HALF` in the enumeration. -/
def LOWER_HALF : Nat := 0

/-- Index of `LEFT_HALF` in the enumeration. -/
def LEFT_HALF : Nat := 1

/-- `WINDOW_SZ = WINDOW_W * WINDOW_H = 64`. -/
def WINDOW_SZ : Nat := 64

/-- The `is_fg` macro: `bits >> (WINDOW_SZ - 1 - i) & 0b1`, selecting the
`i`-th foreground bit (index 0 = most significant bit = top-left pixel). -/
def is_fg (bits i : Nat) : Nat := (bits >>> (63 - i)) &&& 1

/-! ## BlockFitter: `best_fg_bg` and `guess_best_block_element` -/

/-- Conditional sum `∑_{i < n, p i} f i`.  The single accumulation loop
of `best_fg_bg` updates fourteen independent accumulators; each one is a
conditional sum of this shape over the window indices. -/
def condSum (p : Nat → Bool) (f : Nat → Nat) : Nat → Nat
  | 0 => 0
  | n + 1 => condSum p f n + if p n then f n else 0

/-- The foreground test of the loop: `if (is_fg(bitmap, i))`. -/
def fgp (bm : Nat) (i : Nat) : Bool := is_fg bm i == 1

/-- `num_fg`: number of foreground pixels of a bitmap. -/
def numFg (bm : Nat) : Nat := condSum (fgp bm) (fun _ => 1) WINDOW_SZ

/-- `num_bg`: number of background pixels of a bitmap. -/
def numBg (bm : Nat) : Nat := condSum (fun i => !fgp bm i) (fun _ => 1) WINDOW_SZ

/-- Foreground accumulator: sum of `f` over foreground window indices. -/
def sumFg (bm : Nat) (win : Nat → rgb_color) (f : rgb_color → Nat) : Nat :=
  condSum (fgp bm) (fun i => f (win i)) WINDOW_SZ

/-- Background accumulator: sum of `f` over background window indices. -/
def sumBg (bm : Nat) (win : Nat → rgb_color) (f : rgb_color → Nat) : Nat :=
  condSum (fun i => !fgp bm i) (fun i => f (win i)) WINDOW_SZ

/-- C unsigned 32-bit subtraction `a - b` (wrap-around semantics for
operands below `2 ^ 32`). -/
def wrapSub (a b : Nat) : Nat := (2 ^ 32 + a - b) % 2 ^ 32

/-- The result of `best_fg_bg`: the returned loss together with the two
mean colors written through the output pointers. -/
structure fit_result where
  loss : Nat
  mean_fg : rgb_color
  mean_bg : rgb_color
deriving DecidableEq

/-- The mean foreground color written through `*mean_fg`: per channel,
`sum / num_fg` stored into an `unsigned char` field (hence `% 256`). -/
def mean_fg (bm : Nat) (win : Nat → rgb_color) : rgb_color :=
  ⟨sumFg bm win (fun c => c.r) / numFg bm % 256,
   sumFg bm win (fun c => c.g) / numFg bm % 256,
   sumFg bm win (fun c => c.b) / numFg bm % 256⟩

/-- The mean background color written through `*mean_bg`. -/
def mean_bg (bm : Nat) (win : Nat → rgb_color) : rgb_color :=
  ⟨sumBg bm win (fun c => c.r) / numBg bm % 256,
   sumBg bm win (fun c => c.g) / numBg bm % 256,
   sumBg bm win (fun c => c.b) / numBg bm % 256⟩

/-- One `loss += sum2 - n * square(mean)` contribution, with unsigned
subtraction. -/
def lossTerm (s2 n m : Nat) : Nat := wrapSub s2 (n * (m * m))

/-- The returned loss: the six per-channel per-subset contributions
accumulated into an `unsigned int` (the `% 2 ^ 32` models the wrapping
of the six `+=` steps). -/
def fit_loss (bm : Nat) (win : Nat → rgb_color) : Nat :=
  (lossTerm (sumFg bm win (fun c => c.r * c.r)) (numFg bm) (mean_fg bm win).r +
   lossTerm (sumFg bm win (fun c => c.g * c.g)) (numFg bm) (mean_fg bm win).g +
   lossTerm (sumFg bm win (fun c => c.b * c.b)) (numFg bm) (mean_fg bm win).b +
   lossTerm (sumBg bm win (fun c => c.r * c.r)) (numBg bm) (mean_bg bm win).r +
   lossTerm (sumBg bm win (fun c => c.g * c.g)) (numBg bm) (mean_bg bm win).g +
   lossTerm (sumBg bm win (fun c => c.b * c.b)) (numBg bm) (mean_bg bm win).b) % 2 ^ 32

/-- `best_fg_bg`: fit one coverage bitmap to a window.  The single C
loop accumulates the fourteen sums (`num_fg`/`num_bg`, the six channel
sums and the six channel square sums) jointly; each accumulator is
independent, so they appear here as the conditional sums `numFg`,
`numBg`, `sumFg`, `sumBg` over the window indices. -/
def best_fg_bg (bm : Nat) (win : Nat → rgb_color) : fit_result :=
  ⟨fit_loss bm win, mean_fg bm win, mean_bg bm win⟩

/-- `INT_MAX`, the initial running minimum of the glyph search (its
conversion to `unsigned int` in the comparison `loss < best_loss` is
value-preserving). -/
def INT_MAX : Nat := 2147483647

/-- The mutable locals of `guess_best_block_element`.  `best_elem`, and
the output colors, start uninitialized in C; `none` records "not yet
written". -/
structure guess_state where
  best_loss : Nat
  best_elem : Option Nat
  best_fg : rgb_color
  best_bg : rgb_color
deriving DecidableEq

/-- One iteration of the glyph-search loop: strict `<` against the
running minimum. -/
def guess_step (win : Nat → rgb_color) (idx : Nat) (e : block_element)
    (st : guess_state) : guess_state :=
  if (best_fg_bg e.bitmap win).loss < st.best_loss then
    ⟨(best_fg_bg e.bitmap win).loss, some idx,
     (best_fg_bg e.bitmap win).mean_fg, (best_fg_bg e.bitmap win).mean_bg⟩
  else st

/-- The glyph-search loop over the (remaining) catalog, carrying the
index of the current element. -/
def guess_fold (win : Nat → rgb_color) :
    List block_element → Nat → guess_state → guess_state
  | [], _, st => st
  | e :: rest, idx, st => guess_fold win rest (idx + 1) (guess_step win idx e st)

/-- `guess_best_block_element`: run the search and read the recorded
best element.  The C function returns `block_elements[best_elem].utf8`
and has written `*best_fg` / `*best_bg`; if no iteration improved on
`INT_MAX` those reads would be of uninitialized storage, modelled as
`none`. -/
def guess_best_block_element (win : Nat → rgb_color) :
    Option (List Nat × rgb_color × rgb_color) :=
  let st := guess_fold win block_elements 0 ⟨INT_MAX, none, ⟨0, 0, 0⟩, ⟨0, 0, 0⟩⟩
  match st.best_elem with
  | some i => some ((block_elements.getD i ⟨0, []⟩).utf8, st.best_fg, st.best_bg)
  | none => none

/-- The catalog entry at enumeration index `k` (`block_elements[k]`). -/
def elemAt (k : Nat) : block_element := block_elements.getD k ⟨0, []⟩

/-- Consistency of a search state: the recorded best element is a
catalog index and the recorded colors are that element's fit means. -/
def stOK (win : Nat → rgb_color) (st : guess_state) : Prop :=
  ∃ k, k < NUM_ELEMENTS ∧ st.best_elem = some k ∧
    st.best_fg = mean_fg (elemAt k).bitmap win ∧
    st.best_bg = mean_bg (elemAt k).bitmap win

/-! ## FrameRenderer: the three writers

Each writer emits, per output row, a cursor-positioning sequence, the
cells of the row left to right, and a color reset; a single newline
follows the loop over rows.  `seqOut f n` is the concatenation
`f 0 ++ f 1 ++ … ++ f (n-1)` produced by a left-to-right `for` loop. -/

/-- Bytes emitted by a counting `for` loop running `f 0`, …, `f (n-1)`. -/
def seqOut (f : Nat → List Nat) : Nat → List Nat
  | 0 => []
  | n + 1 => seqOut f n ++ f n

/-- One cell of `write_plain`: background color of the pixel (256-color
or true-color), then a space (byte 32). -/
def plain_cell (term256 : Bool) (px : rgb_color) : List Nat :=
  (if term256 then print_seq1 ESC_COLOR256_BG (toByte (rgb_to_x256 px.r px.g px.b))
   else print_seq3 ESC_COLOR_BG px.r px.g px.b) ++ [32]

/-- `write_plain`: one source pixel per cell.  `dwidth`/`dheight` are the
C `int` terminal dimensions; `tx`/`ty` use C truncating division. -/
def write_plain (dwidth dheight : Int) (swidth sheight : Nat)
    (source : Nat → Nat) (source_stride : Nat) (term256 : Bool) : List Nat :=
  let tx := Int.tdiv (dwidth - swidth) 2
  let ty := Int.tdiv (dheight - sheight) 2
  seqOut (fun y =>
      gotoxy (ty + y) tx ++
      seqOut (fun x => plain_cell term256 (get_rgb source (y * source_stride + 3 * x)))
        swidth ++
      ESC_CLEAR_COLORS)
    sheight ++ [10]

/-- One cell of `write_half_blocks`: background color of the upper pixel,
foreground color of the lower pixel, then U+2584. -/
def half_cell (term256 : Bool) (up down : rgb_color) : List Nat :=
  (if term256 then
    print_seq1 ESC_COLOR256_BG (toByte (rgb_to_x256 up.r up.g up.b)) ++
    print_seq1 ESC_COLOR256_FG (toByte (rgb_to_x256 down.r down.g down.b))
   else
    print_seq3 ESC_COLOR_BG up.r up.g up.b ++
    print_seq3 ESC_COLOR_FG down.r down.g down.b) ++ LOWER_HALF_UTF8

/-- `write_half_blocks`: two vertically adjacent source pixels per cell.
The C loop runs `y = 0, 2, …, 2*sheight - 2` and prints row `y / 2`;
the model iterates directly over the cell row `ry = y / 2`. -/
def write_half_blocks (dwidth dheight : Int) (swidth sheight : Nat)
    (source : Nat → Nat) (source_stride : Nat) (term256 : Bool) : List Nat :=
  let tx := Int.tdiv (dwidth - swidth) 2
  let ty := Int.tdiv (dheight - sheight) 2
  seqOut (fun ry =>
      gotoxy (ty + ry) tx ++
      seqOut (fun x =>
          half_cell term256
            (get_rgb source (2 * ry * source_stride + 3 * x))
            (get_rgb source ((2 * ry + 1) * source_stride + 3 * x)))
        swidth ++
      ESC_CLEAR_COLORS)
    sheight ++ [10]

/-- The window filled for cell `(ry, x)` of `write_all_blocks`: window
index `j` (row-major, `j / 8`-th window row, `j % 8`-th column) reads the
pixel at source row `8 * ry + j / 8`, source column `8 * x + j % 8`. -/
def winAt (source : Nat → Nat) (source_stride ry x : Nat) : Nat → rgb_color :=
  fun j => get_rgb source ((8 * ry + j / 8) * source_stride + 3 * (8 * x + j % 8))

/-- One cell of `write_all_blocks`: background then foreground mean color
of the fitted element, then its glyph.  The `none` branch stands for the
uninitialized reads C would perform if no element had been recorded. -/
def blocks_cell (term256 : Bool) (win : Nat → rgb_color) : List Nat :=
  match guess_best_block_element win with
  | some (u, fg, bg) =>
    (if term256 then
      print_seq1 ESC_COLOR256_BG (toByte (rgb_to_x256 bg.r bg.g bg.b)) ++
      print_seq1 ESC_COLOR256_FG (toByte (rgb_to_x256 fg.r fg.g fg.b))
     else
      print_seq3 ESC_COLOR_BG bg.r bg.g bg.b ++
      print_seq3 ESC_COLOR_FG fg.r fg.g fg.b) ++ u
  | none => []

/-- `write_all_blocks`: an 8×8 window of source pixels per cell.  The C
loop runs `y = 0, 8, …, 8*sheight - 8` and prints row `y / 8`; the model
iterates directly over the cell row `ry = y / 8`. -/
def write_all_blocks (dwidth dheight : Int) (swidth sheight : Nat)
    (source : Nat → Nat) (source_stride : Nat) (term256 : Bool) : List Nat :=
  let tx := Int.tdiv (dwidth - swidth) 2
  let ty := Int.tdiv (dheight - sheight) 2
  seqOut (fun ry =>
      gotoxy (ty + ry) tx ++
      seqOut (fun x => blocks_cell term256 (winAt source source_stride ry x))
        swidth ++
      ESC_CLEAR_COLORS)
    sheight ++ [10]

/-! ## Reference formulation of the per-row output structure

The specification describes each strategy's output as: per output row,
one cursor-positioning sequence at the centered position (offsets
computed with floor division), the cells left to right, then a color
reset.  The two frame shapes below differ only in where the newline
goes: `spec_centered_frame` places a single newline after the last row,
`claim_rowwise_frame` places one after every row's reset (the shape the
claim under test asserts). -/

/-- One output row as the specification words it: one cursor-positioning
sequence at the floor-division-centered position, the row's cells left to
right, then a color reset. -/
def spec_row (dwidth dheight : Int) (swidth sheight : Nat)
    (cell : Nat → Nat → List Nat) (y : Nat) : List Nat :=
  gotoxy (Int.fdiv (dheight - sheight) 2 + y) (Int.fdiv (dwidth - swidth) 2) ++
  ((List.range swidth).map (cell y)).flatten ++ ESC_CLEAR_COLORS

/-- Whole-frame output with a single newline after the final row. -/
def spec_centered_frame (dwidth dheight : Int) (swidth sheight : Nat)
    (cell : Nat → Nat → List Nat) : List Nat :=
  ((List.range sheight).map (spec_row dwidth dheight swidth sheight cell)).flatten
    ++ [10]

/-- Whole-frame output with a newline after each row's reset. -/
def claim_rowwise_frame (dwidth dheight : Int) (swidth sheight : Nat)
    (cell : Nat → Nat → List Nat) : List Nat :=
  ((List.range sheight).map
    (fun y => spec_row dwidth dheight swidth sheight cell y ++ [10])).flatten

/-! ## Helper lemmas -/

/-- Unfolding lemma: a `for` loop's output is the join of its items. -/
theorem seqOut_eq_join (f : Nat → List Nat) (n : Nat) :
    seqOut f n = ((List.range n).map f).flatten := by
  induction n with
  | zero => rfl
  | succ n ih => simp [seqOut, List.range_succ, ih]

/-- A conditional sum only depends on the summand at selected indices. -/
theorem condSum_congr (p : Nat → Bool) (f g : Nat → Nat) (n : Nat)
    (h : ∀ i, i < n → p i = true → f i = g i) :
    condSum p f n = condSum p g n := by
  induction n with
  | zero => rfl
  | succ n ih =>
    have hfg : condSum p f n = condSum p g n :=
      ih fun i hi => h i (Nat.lt_succ_of_lt hi)
    cases hp : p n with
    | false => simp [condSum, hp, hfg]
    | true => simp [condSum, hp, hfg, h n (Nat.lt_succ_self n) hp]

/-- A conditional sum of a constant is the constant times the count. -/
theorem condSum_const (p : Nat → Bool) (c n : Nat) :
    condSum p (fun _ => c) n = c * condSum p (fun _ => 1) n := by
  induction n with
  | zero => simp [condSum]
  | succ n ih =>
    cases hp : p n <;> simp [condSum, hp, ih, Nat.mul_add]

/-- A conditional sum of a bounded summand is at most the bound times
the count. -/
theorem condSum_le_mul_count (p : Nat → Bool) (f : Nat → Nat) (c n : Nat)
    (h : ∀ i, i < n → f i ≤ c) :
    condSum p f n ≤ c * condSum p (fun _ => 1) n := by
  induction n with
  | zero => simp [condSum]
  | succ n ih =>
    have ih' := ih fun i hi => h i (Nat.lt_succ_of_lt hi)
    cases hp : p n with
    | false => simpa [condSum, hp] using ih'
    | true =>
      have := h n (Nat.lt_succ_self n)
      simp only [condSum, hp, if_pos, Nat.mul_add, Nat.mul_one]
      omega

/-- The count of selected indices is at most the range length. -/
theorem count_le (p : Nat → Bool) (n : Nat) :
    condSum p (fun _ => 1) n ≤ n := by
  induction n with
  | zero => simp [condSum]
  | succ n ih => cases hp : p n <;> simp [condSum, hp] <;> omega

/-- A conditional sum and the complementary conditional sum add up to
the full sum. -/
theorem condSum_add_not (p : Nat → Bool) (f : Nat → Nat) (n : Nat) :
    condSum p f n + condSum (fun i => !p i) f n =
      condSum (fun _ => true) f n := by
  induction n with
  | zero => rfl
  | succ n ih => cases hp : p n <;> simp [condSum, hp] <;> omega

/-- If no index is selected, every conditional sum vanishes. -/
theorem condSum_of_count_zero (p : Nat → Bool) (f : Nat → Nat) (n : Nat)
    (h : condSum p (fun _ => 1) n = 0) : condSum p f n = 0 := by
  induction n with
  | zero => rfl
  | succ n ih =>
    cases hp : p n with
    | false =>
      simp only [condSum, hp] at h ⊢
      simpa using ih (by omega)
    | true => simp [condSum, hp] at h

/-- Cauchy–Schwarz for conditional sums:
`(∑ f)² ≤ (count) * (∑ f²)` over the selected indices. -/
theorem condSum_sq_le (p : Nat → Bool) (f : Nat → Nat) (n : Nat) :
    condSum p f n * condSum p f n ≤
      condSum p (fun _ => 1) n * condSum p (fun i => f i * f i) n := by
  induction n with
  | zero => simp [condSum]
  | succ n ih =>
    cases hp : p n with
    | false => simpa [condSum, hp] using ih
    | true =>
      simp only [condSum, hp, if_pos]
      rcases Nat.eq_zero_or_pos (condSum p (fun _ => 1) n) with hk | hk
      · have hf0 : condSum p f n = 0 := condSum_of_count_zero p f n hk
        have hq0 : condSum p (fun i => f i * f i) n = 0 :=
          condSum_of_count_zero p _ n hk
        simp [hk, hf0, hq0]
      · set S := condSum p f n with hS
        set k := condSum p (fun _ => 1) n with hk'
        set Q := condSum p (fun i => f i * f i) n with hQ
        have hint : ((S : Int) + f n) * ((S : Int) + f n) ≤
            ((k : Int) + 1) * ((Q : Int) + f n * f n) := by
          have ihz : ((S : Int)) * S ≤ (k : Int) * Q := by exact_mod_cast ih
          have hkz : (1 : Int) ≤ (k : Int) := by exact_mod_cast hk
          nlinarith [sq_nonneg ((k : Int) * f n - S), ihz, hkz,
            Int.natCast_nonneg S, Int.natCast_nonneg Q, Int.natCast_nonneg (f n)]
        exact_mod_cast hint

/-- Truncated-mean bound: for a positive count `k`,
`k * (S / k)² ≤ Q` whenever `S² ≤ k * Q` (Cauchy–Schwarz form). -/
theorem count_mul_mean_sq_le (S Q k : Nat) (hk : 0 < k)
    (hcs : S * S ≤ k * Q) : k * (S / k * (S / k)) ≤ Q := by
  have h1 : S / k * k ≤ S := Nat.div_mul_le_self S k
  have h2 : k * (S / k * (S / k)) ≤ S * (S / k) := by
    calc k * (S / k * (S / k)) = S / k * k * (S / k) := by ring
    _ ≤ S * (S / k) := Nat.mul_le_mul_right _ h1
  have h3 : k * (S * (S / k)) ≤ k * Q := by
    calc k * (S * (S / k)) = S * (S / k * k) := by ring
    _ ≤ S * S := Nat.mul_le_mul_left _ h1
    _ ≤ k * Q := hcs
  exact le_trans h2 (Nat.le_of_mul_le_mul_left h3 hk)

/-- Unsigned subtraction is exact subtraction in the absence of
underflow. -/
theorem wrapSub_eq_sub (a b : Nat) (hb : b ≤ a) (ha : a < 2 ^ 32) :
    wrapSub a b = a - b := by
  unfold wrapSub; omega

/-- `a - a` wraps to zero. -/
theorem wrapSub_self (a : Nat) : wrapSub a a = 0 := by
  unfold wrapSub; omega

/-- Cube coordinates of in-range channel values stay within 0–5. -/
theorem v2ci_le_five (v : Nat) (hv : v < 256) : v2ci v ≤ 5 := by
  unfold v2ci
  split
  · omega
  · split <;> omega

/-- `gray_index` computes the same value as the nonnegative truncated
quotient `(avg - 3) / 10` on `Nat` (for `avg < 3` the C expression
divides a value in `(-10, 0]` by 10, which truncates toward zero to 0,
agreeing with truncated `Nat` subtraction). -/
theorem gray_index_eq (avg : Nat) :
    gray_index avg = ((if 238 < avg then 23 else (avg - 3) / 10 : Nat) : Int) := by
  unfold gray_index
  rcases Nat.lt_or_ge 238 avg with h | h
  · simp [h]
  · have h' : ¬238 < avg := by omega
    simp only [h', if_false]
    rcases Nat.lt_or_ge avg 3 with h3 | h3
    · interval_cases avg <;> rfl
    · have hcast : ((avg : Int) - 3) = ((avg - 3 : Nat) : Int) := by omega
      rw [hcast]
      have := (Int.ofNat_tdiv (avg - 3) 10).symm
      exact_mod_cast this

/-- The grayscale index of an in-range average stays within 0–23. -/
theorem gray_index_bounds (avg : Nat) (h : avg ≤ 255) :
    0 ≤ gray_index avg ∧ gray_index avg ≤ 23 := by
  rw [gray_index_eq]
  constructor
  · positivity
  · split <;> [omega; exact_mod_cast (by omega : (avg - 3) / 10 ≤ 23)]

/-- **C7** (confirmed).  For every 24-bit RGB triple, each cube
coordinate lies in 0–5, the grayscale index lies in 0–23, both candidate
palette indices `16 + 36r + 6g + b` and `232 + gray` are in range, and
`rgb_to_x256` returns a palette index in `[16, 255]`. -/
theorem rgb_to_x256_range (r g b : Nat)
    (hr : r < 256) (hg : g < 256) (hb : b < 256) :
    v2ci r ≤ 5 ∧ v2ci g ≤ 5 ∧ v2ci b ≤ 5 ∧
    0 ≤ gray_index (averageRGB r g b) ∧ gray_index (averageRGB r g b) ≤ 23 ∧
    16 + (color_index (v2ci r) (v2ci g) (v2ci b) : Int) ≤ 231 ∧
    232 + gray_index (averageRGB r g b) ≤ 255 ∧
    16 ≤ rgb_to_x256 r g b ∧ rgb_to_x256 r g b ≤ 255 := by
  have h1 := v2ci_le_five r hr
  have h2 := v2ci_le_five g hg
  have h3 := v2ci_le_five b hb
  have havg : averageRGB r g b ≤ 255 := by unfold averageRGB; omega
  have h4 := gray_index_bounds (averageRGB r g b) havg
  have hci : color_index (v2ci r) (v2ci g) (v2ci b) ≤ 215 := by
    unfold color_index; omega
  refine ⟨h1, h2, h3, h4.1, h4.2, ?_, ?_, ?_, ?_⟩
  · omega
  · omega
  · unfold rgb_to_x256; split <;> omega
  · unfold rgb_to_x256; split <;> omega

/-- Witness for `rgb_to_x256_range` at the concrete input
`(r, g, b) = (200, 100, 50)`. -/
theorem rgb_to_x256_range_witness :
    (200 : Nat) < 256 ∧ (100 : Nat) < 256 ∧ (50 : Nat) < 256 ∧
    (16 ≤ rgb_to_x256 200 100 50 ∧ rgb_to_x256 200 100 50 ≤ 255) :=
  ⟨by decide, by decide, by decide, by
    have h := rgb_to_x256_range 200 100 50 (by decide) (by decide) (by decide)
    exact ⟨h.2.2.2.2.2.2.2.1, h.2.2.2.2.2.2.2.2⟩⟩

/-- **C6** counterexample.  The input `r = g = b = 118` is *not* a tie:
the grayscale candidate reconstructs 118 exactly while the color-cube
candidate is at squared distance 867, and `rgb_to_x256` does not return
the color-cube index. -/
theorem tie118_not_tie :
    color_err 118 118 118 ≠ gray_err 118 118 118 ∧
    rgb_to_x256 118 118 118 ≠
      16 + (color_index (v2ci 118) (v2ci 118) (v2ci 118) : Int) := by decide

/-- **C6** (corrected).  At `r = g = b = 118` the color-cube candidate
has squared distance 867 while the grayscale candidate has squared
distance 0, so the `≤` rule (cube wins only when its distance is at most
the grayscale distance) selects the grayscale branch, returning
`232 + 11 = 243`. -/
theorem tie118_resolves_gray :
    color_err 118 118 118 = 867 ∧ gray_err 118 118 118 = 0 ∧
    rgb_to_x256 118 118 118 = 232 + gray_index (averageRGB 118 118 118) ∧
    rgb_to_x256 118 118 118 = 243 := by decide

/-- **C8** (confirmed).  Every catalog coverage mask is a 64-bit value
that is neither all-0 nor all-1, so every glyph yields `num_fg > 0` and
`num_bg > 0` (and the two counts partition the 64-pixel window), and the
mean-color divisions never divide by zero. -/
theorem catalog_masks_proper :
    ∀ i : Fin NUM_ELEMENTS,
      (block_elements.getD i.val ⟨0, []⟩).bitmap ≠ 0 ∧
      (block_elements.getD i.val ⟨0, []⟩).bitmap < 2 ^ 64 ∧
      (block_elements.getD i.val ⟨0, []⟩).bitmap ≠ 2 ^ 64 - 1 ∧
      0 < numFg (block_elements.getD i.val ⟨0, []⟩).bitmap ∧
      0 < numBg (block_elements.getD i.val ⟨0, []⟩).bitmap ∧
      numFg (block_elements.getD i.val ⟨0, []⟩).bitmap +
        numBg (block_elements.getD i.val ⟨0, []⟩).bitmap = 64 := by decide

/-- Sanity check that `decDigits` is decimal formatting: reading its
digits back in base 10 recovers the number. -/
theorem decDigits_models_decimal :
    ∀ n : Fin 256,
      Nat.ofDigits 10 (((decDigits n.val).map (fun d => d - 48)).reverse) =
        n.val := by
  set_option maxRecDepth 8000 in decide

/-- **C9** (confirmed).  For every byte value `i`, the lookup-table entry
emits exactly `';'` followed by the decimal digits of `i`, and its
recorded width is that text's byte length: 2 for `i < 10`, 3 for
`10 ≤ i < 100`, 4 for `100 ≤ i ≤ 255`. -/
theorem lut_entries_exact :
    ∀ i : Fin 256,
      lut_bytes i.val = 59 :: decDigits i.val ∧
      lut_width i.val = (if i.val < 10 then 2 else if i.val < 100 then 3 else 4) := by
  set_option maxRecDepth 8000 in decide

/-- An `unsigned char` store of a truncated subset mean is lossless:
the quotient is below 256 whenever the sum is over at most 255-valued
entries. -/
theorem mean_store_exact (S k : Nat) (hk : 0 < k) (hS : S ≤ 255 * k) :
    S / k % 256 = S / k :=
  Nat.mod_eq_of_lt (by rw [Nat.div_lt_iff_lt_mul hk]; omega)

/-- One loss contribution, exactly: under Cauchy–Schwarz the subtrahend
`n * mean²` never exceeds the square sum, so the unsigned subtraction is
exact. -/
theorem lossTerm_exact (S2 S k : Nat) (hk : 0 < k) (hcs : S * S ≤ k * S2)
    (hS2 : S2 < 2 ^ 32) :
    k * (S / k % 256 * (S / k % 256)) ≤ S2 ∧
    lossTerm S2 k (S / k % 256) = S2 - k * (S / k % 256 * (S / k % 256)) := by
  have hm : S / k % 256 ≤ S / k := Nat.mod_le _ _
  have h1 : k * (S / k % 256 * (S / k % 256)) ≤ k * (S / k * (S / k)) :=
    Nat.mul_le_mul_left _ (Nat.mul_le_mul hm hm)
  have h2 : k * (S / k * (S / k)) ≤ S2 := count_mul_mean_sq_le S S2 k hk hcs
  exact ⟨le_trans h1 h2, wrapSub_eq_sub _ _ (le_trans h1 h2) hS2⟩

/-- The foreground and background square sums of one channel partition
the whole window's square sum, which is at most `64 * 255²`. -/
theorem sum_sq_pair_le (bm : Nat) (win : Nat → rgb_color) (f : rgb_color → Nat)
    (hf : ∀ i, i < 64 → f (win i) * f (win i) ≤ 65025) :
    sumFg bm win (fun c => f c * f c) + sumBg bm win (fun c => f c * f c) ≤
      64 * 65025 := by
  have h : condSum (fgp bm) (fun i => f (win i) * f (win i)) 64 +
      condSum (fun i => !fgp bm i) (fun i => f (win i) * f (win i)) 64 =
      condSum (fun _ => true) (fun i => f (win i) * f (win i)) 64 :=
    condSum_add_not _ _ 64
  have h2 : condSum (fun _ => true) (fun i => f (win i) * f (win i)) 64 ≤
      65025 * condSum (fun _ => true) (fun _ => 1) 64 :=
    condSum_le_mul_count _ _ _ _ hf
  have h3 : condSum (fun _ => true) (fun _ => (1 : Nat)) 64 ≤ 64 := count_le _ _
  show condSum (fgp bm) (fun i => f (win i) * f (win i)) 64 +
      condSum (fun i => !fgp bm i) (fun i => f (win i) * f (win i)) 64 ≤ 64 * 65025
  omega

/-- The exactness bundle for one fit: no unsigned subtraction
underflows, the returned loss is exactly the sum of the six per-channel
per-subset contributions `Σ(xᵢ²) - n * mean²`, and it is bounded by
`3 * 64 * 255²`. -/
theorem fit_loss_exact (bm : Nat) (win : Nat → rgb_color)
    (hw : ∀ i, i < 64 → (win i).valid) (hfg : 0 < numFg bm) (hbg : 0 < numBg bm) :
    (numFg bm * ((mean_fg bm win).r * (mean_fg bm win).r) ≤
        sumFg bm win (fun c => c.r * c.r) ∧
     numFg bm * ((mean_fg bm win).g * (mean_fg bm win).g) ≤
        sumFg bm win (fun c => c.g * c.g) ∧
     numFg bm * ((mean_fg bm win).b * (mean_fg bm win).b) ≤
        sumFg bm win (fun c => c.b * c.b) ∧
     numBg bm * ((mean_bg bm win).r * (mean_bg bm win).r) ≤
        sumBg bm win (fun c => c.r * c.r) ∧
     numBg bm * ((mean_bg bm win).g * (mean_bg bm win).g) ≤
        sumBg bm win (fun c => c.g * c.g) ∧
     numBg bm * ((mean_bg bm win).b * (mean_bg bm win).b) ≤
        sumBg bm win (fun c => c.b * c.b)) ∧
    fit_loss bm win =
      (sumFg bm win (fun c => c.r * c.r) -
        numFg bm * ((mean_fg bm win).r * (mean_fg bm win).r)) +
      (sumFg bm win (fun c => c.g * c.g) -
        numFg bm * ((mean_fg bm win).g * (mean_fg bm win).g)) +
      (sumFg bm win (fun c => c.b * c.b) -
        numFg bm * ((mean_fg bm win).b * (mean_fg bm win).b)) +
      (sumBg bm win (fun c => c.r * c.r) -
        numBg bm * ((mean_bg bm win).r * (mean_bg bm win).r)) +
      (sumBg bm win (fun c => c.g * c.g) -
        numBg bm * ((mean_bg bm win).g * (mean_bg bm win).g)) +
      (sumBg bm win (fun c => c.b * c.b) -
        numBg bm * ((mean_bg bm win).b * (mean_bg bm win).b)) ∧
    fit_loss bm win ≤ 3 * (64 * 65025) := by
  have hr2 : ∀ i, i < 64 → (win i).r * (win i).r ≤ 65025 := fun i hi => by
    have hle : (win i).r ≤ 255 := by have := (hw i hi).1; omega
    calc (win i).r * (win i).r ≤ 255 * 255 := Nat.mul_le_mul hle hle
      _ = 65025 := by norm_num
  have hg2 : ∀ i, i < 64 → (win i).g * (win i).g ≤ 65025 := fun i hi => by
    have hle : (win i).g ≤ 255 := by have := (hw i hi).2.1; omega
    calc (win i).g * (win i).g ≤ 255 * 255 := Nat.mul_le_mul hle hle
      _ = 65025 := by norm_num
  have hb2 : ∀ i, i < 64 → (win i).b * (win i).b ≤ 65025 := fun i hi => by
    have hle : (win i).b ≤ 255 := by have := (hw i hi).2.2; omega
    calc (win i).b * (win i).b ≤ 255 * 255 := Nat.mul_le_mul hle hle
      _ = 65025 := by norm_num
  have hpr : sumFg bm win (fun c => c.r * c.r) + sumBg bm win (fun c => c.r * c.r) ≤
      64 * 65025 := sum_sq_pair_le bm win (fun c => c.r) hr2
  have hpg : sumFg bm win (fun c => c.g * c.g) + sumBg bm win (fun c => c.g * c.g) ≤
      64 * 65025 := sum_sq_pair_le bm win (fun c => c.g) hg2
  have hpb : sumFg bm win (fun c => c.b * c.b) + sumBg bm win (fun c => c.b * c.b) ≤
      64 * 65025 := sum_sq_pair_le bm win (fun c => c.b) hb2
  have hcs_fr : sumFg bm win (fun c => c.r) * sumFg bm win (fun c => c.r) ≤
      numFg bm * sumFg bm win (fun c => c.r * c.r) :=
    condSum_sq_le (fgp bm) (fun i => (win i).r) 64
  have hcs_fg : sumFg bm win (fun c => c.g) * sumFg bm win (fun c => c.g) ≤
      numFg bm * sumFg bm win (fun c => c.g * c.g) :=
    condSum_sq_le (fgp bm) (fun i => (win i).g) 64
  have hcs_fb : sumFg bm win (fun c => c.b) * sumFg bm win (fun c => c.b) ≤
      numFg bm * sumFg bm win (fun c => c.b * c.b) :=
    condSum_sq_le (fgp bm) (fun i => (win i).b) 64
  have hcs_br : sumBg bm win (fun c => c.r) * sumBg bm win (fun c => c.r) ≤
      numBg bm * sumBg bm win (fun c => c.r * c.r) :=
    condSum_sq_le (fun i => !fgp bm i) (fun i => (win i).r) 64
  have hcs_bg : sumBg bm win (fun c => c.g) * sumBg bm win (fun c => c.g) ≤
      numBg bm * sumBg bm win (fun c => c.g * c.g) :=
    condSum_sq_le (fun i => !fgp bm i) (fun i => (win i).g) 64
  have hcs_bb : sumBg bm win (fun c => c.b) * sumBg bm win (fun c => c.b) ≤
      numBg bm * sumBg bm win (fun c => c.b * c.b) :=
    condSum_sq_le (fun i => !fgp bm i) (fun i => (win i).b) 64
  have h1 : numFg bm * ((mean_fg bm win).r * (mean_fg bm win).r) ≤
        sumFg bm win (fun c => c.r * c.r) ∧
      lossTerm (sumFg bm win (fun c => c.r * c.r)) (numFg bm) (mean_fg bm win).r =
        sumFg bm win (fun c => c.r * c.r) -
          numFg bm * ((mean_fg bm win).r * (mean_fg bm win).r) :=
    lossTerm_exact _ _ _ hfg hcs_fr (by omega)
  have h2 : numFg bm * ((mean_fg bm win).g * (mean_fg bm win).g) ≤
        sumFg bm win (fun c => c.g * c.g) ∧
      lossTerm (sumFg bm win (fun c => c.g * c.g)) (numFg bm) (mean_fg bm win).g =
        sumFg bm win (fun c => c.g * c.g) -
          numFg bm * ((mean_fg bm win).g * (mean_fg bm win).g) :=
    lossTerm_exact _ _ _ hfg hcs_fg (by omega)
  have h3 : numFg bm * ((mean_fg bm win).b * (mean_fg bm win).b) ≤
        sumFg bm win (fun c => c.b * c.b) ∧
      lossTerm (sumFg bm win (fun c => c.b * c.b)) (numFg bm) (mean_fg bm win).b =
        sumFg bm win (fun c => c.b * c.b) -
          numFg bm * ((mean_fg bm win).b * (mean_fg bm win).b) :=
    lossTerm_exact _ _ _ hfg hcs_fb (by omega)
  have h4 : numBg bm * ((mean_bg bm win).r * (mean_bg bm win).r) ≤
        sumBg bm win (fun c => c.r * c.r) ∧
      lossTerm (sumBg bm win (fun c => c.r * c.r)) (numBg bm) (mean_bg bm win).r =
        sumBg bm win (fun c => c.r * c.r) -
          numBg bm * ((mean_bg bm win).r * (mean_bg bm win).r) :=
    lossTerm_exact _ _ _ hbg hcs_br (by omega)
  have h5 : numBg bm * ((mean_bg bm win).g * (mean_bg bm win).g) ≤
        sumBg bm win (fun c => c.g * c.g) ∧
      lossTerm (sumBg bm win (fun c => c.g * c.g)) (numBg bm) (mean_bg bm win).g =
        sumBg bm win (fun c => c.g * c.g) -
          numBg bm * ((mean_bg bm win).g * (mean_bg bm win).g) :=
    lossTerm_exact _ _ _ hbg hcs_bg (by omega)
  have h6 : numBg bm * ((mean_bg bm win).b * (mean_bg bm win).b) ≤
        sumBg bm win (fun c => c.b * c.b) ∧
      lossTerm (sumBg bm win (fun c => c.b * c.b)) (numBg bm) (mean_bg bm win).b =
        sumBg bm win (fun c => c.b * c.b) -
          numBg bm * ((mean_bg bm win).b * (mean_bg bm win).b) :=
    lossTerm_exact _ _ _ hbg hcs_bb (by omega)
  refine ⟨⟨h1.1, h2.1, h3.1, h4.1, h5.1, h6.1⟩, ?_, ?_⟩
  · unfold fit_loss
    rw [h1.2, h2.2, h3.2, h4.2, h5.2, h6.2]
    omega
  · unfold fit_loss
    rw [h1.2, h2.2, h3.2, h4.2, h5.2, h6.2]
    omega

/-- On a uniform window every foreground channel sum is the channel
value times the foreground count. -/
theorem sumFg_uniform (bm : Nat) (c : rgb_color) (f : rgb_color → Nat) :
    sumFg bm (fun _ => c) f = f c * numFg bm :=
  condSum_const (fgp bm) (f c) WINDOW_SZ

/-- On a uniform window every background channel sum is the channel
value times the background count. -/
theorem sumBg_uniform (bm : Nat) (c : rgb_color) (f : rgb_color → Nat) :
    sumBg bm (fun _ => c) f = f c * numBg bm :=
  condSum_const (fun i => !fgp bm i) (f c) WINDOW_SZ

/-- On a uniform window the foreground mean is the window color. -/
theorem mean_fg_uniform (bm : Nat) (c : rgb_color)
    (hfg : 0 < numFg bm) (hc : c.valid) : mean_fg bm (fun _ => c) = c := by
  obtain ⟨hr, hg, hb⟩ := hc
  unfold mean_fg
  rw [sumFg_uniform, sumFg_uniform, sumFg_uniform,
    Nat.mul_div_cancel _ hfg, Nat.mul_div_cancel _ hfg, Nat.mul_div_cancel _ hfg,
    Nat.mod_eq_of_lt hr, Nat.mod_eq_of_lt hg, Nat.mod_eq_of_lt hb]

/-- On a uniform window the background mean is the window color. -/
theorem mean_bg_uniform (bm : Nat) (c : rgb_color)
    (hbg : 0 < numBg bm) (hc : c.valid) : mean_bg bm (fun _ => c) = c := by
  obtain ⟨hr, hg, hb⟩ := hc
  unfold mean_bg
  rw [sumBg_uniform, sumBg_uniform, sumBg_uniform,
    Nat.mul_div_cancel _ hbg, Nat.mul_div_cancel _ hbg, Nat.mul_div_cancel _ hbg,
    Nat.mod_eq_of_lt hr, Nat.mod_eq_of_lt hg, Nat.mod_eq_of_lt hb]

/-- On a uniform window every glyph's loss is zero. -/
theorem fit_loss_uniform (bm : Nat) (c : rgb_color)
    (hfg : 0 < numFg bm) (hbg : 0 < numBg bm) (hc : c.valid) :
    fit_loss bm (fun _ => c) = 0 := by
  have e1 : ∀ a n : Nat, wrapSub (a * n) (n * a) = 0 := fun a n => by
    rw [Nat.mul_comm]; exact wrapSub_self _
  unfold fit_loss lossTerm
  rw [mean_fg_uniform bm c hfg hc, mean_bg_uniform bm c hbg hc,
    sumFg_uniform, sumFg_uniform, sumFg_uniform,
    sumBg_uniform, sumBg_uniform, sumBg_uniform]
  simp [e1]

/-- On a uniform valid-color window the fit of any proper bitmap returns
loss 0 and the window color for both means. -/
theorem best_fg_bg_uniform (bm : Nat) (c : rgb_color)
    (hfg : 0 < numFg bm) (hbg : 0 < numBg bm) (hc : c.valid) :
    best_fg_bg bm (fun _ => c) = ⟨0, c, c⟩ := by
  unfold best_fg_bg
  rw [fit_loss_uniform bm c hfg hbg hc, mean_fg_uniform bm c hfg hc,
    mean_bg_uniform bm c hbg hc]

/-- If no remaining element's loss beats the running minimum (strict
`<`), the search state is unchanged. -/
theorem guess_fold_of_not_lt (win : Nat → rgb_color) (l : List block_element) :
    ∀ (idx : Nat) (st : guess_state),
      (∀ e ∈ l, ¬(best_fg_bg e.bitmap win).loss < st.best_loss) →
      guess_fold win l idx st = st := by
  induction l with
  | nil => intro idx st _; rfl
  | cons e t ih =>
    intro idx st h
    have he : ¬(best_fg_bg e.bitmap win).loss < st.best_loss :=
      h e (List.mem_cons_self e t)
    have hstep : guess_step win idx e st = st := by
      unfold guess_step; simp [he]
    show guess_fold win t (idx + 1) (guess_step win idx e st) = st
    rw [hstep]
    exact ih (idx + 1) st fun e' he' => h e' (List.mem_cons_of_mem e he')

/-- Every catalog mask has nonempty foreground and background. -/
theorem catalog_counts_pos :
    ∀ e ∈ block_elements, 0 < numFg e.bitmap ∧ 0 < numBg e.bitmap := by decide

/-- **C4** (confirmed).  On a window that is uniformly one valid color,
every one of the 19 catalog glyphs yields loss zero, and the search
returns the first-enumerated glyph (`LOWER_HALF`, U+2584, listed first)
with both means equal to the window color, because ties are broken by
the strict `<` comparison against the running minimum. -/
theorem uniform_window_fit (c : rgb_color) (hc : c.valid) :
    (∀ e ∈ block_elements, (best_fg_bg e.bitmap (fun _ => c)).loss = 0) ∧
    guess_best_block_element (fun _ => c) = some (LOWER_HALF_UTF8, c, c) := by
  have hfit : ∀ e ∈ block_elements, best_fg_bg e.bitmap (fun _ => c) = ⟨0, c, c⟩ :=
    fun e he =>
      best_fg_bg_uniform e.bitmap c (catalog_counts_pos e he).1
        (catalog_counts_pos e he).2 hc
  refine ⟨fun e he => by rw [hfit e he], ?_⟩
  have hbe : block_elements =
      (⟨4294967295, LOWER_HALF_UTF8⟩ : block_element) :: block_elements.tail := by
    rfl
  have h0 : best_fg_bg (4294967295 : Nat) (fun _ => c) = ⟨0, c, c⟩ :=
    hfit ⟨4294967295, LOWER_HALF_UTF8⟩ (by rw [hbe]; exact List.mem_cons_self _ _)
  have hstep : guess_step (fun _ => c) 0 ⟨4294967295, LOWER_HALF_UTF8⟩
      ⟨INT_MAX, none, ⟨0, 0, 0⟩, ⟨0, 0, 0⟩⟩ = ⟨0, some 0, c, c⟩ := by
    unfold guess_step
    rw [h0]
    norm_num [INT_MAX]
  have hstate : guess_fold (fun _ => c) block_elements 0
      ⟨INT_MAX, none, ⟨0, 0, 0⟩, ⟨0, 0, 0⟩⟩ = ⟨0, some 0, c, c⟩ := by
    rw [hbe]
    show guess_fold (fun _ => c) block_elements.tail 1
      (guess_step (fun _ => c) 0 ⟨4294967295, LOWER_HALF_UTF8⟩
        ⟨INT_MAX, none, ⟨0, 0, 0⟩, ⟨0, 0, 0⟩⟩) = ⟨0, some 0, c, c⟩
    rw [hstep]
    exact guess_fold_of_not_lt (fun _ => c) block_elements.tail 1 ⟨0, some 0, c, c⟩
      fun e' he' => by
        rw [hfit e' (by rw [hbe]; exact List.mem_cons_of_mem _ he')]
        exact Nat.not_lt_zero _
  unfold guess_best_block_element
  rw [hstate]
  rfl

/-- Witness for `uniform_window_fit` at the uniform color `(5, 6, 7)`. -/

theorem uniform_window_fit_witness :
    (⟨5, 6, 7⟩ : rgb_color).valid ∧
    guess_best_block_element (fun _ => (⟨5, 6, 7⟩ : rgb_color)) =
      some (LOWER_HALF_UTF8, ⟨5, 6, 7⟩, ⟨5, 6, 7⟩) :=
  ⟨by decide, (uniform_window_fit ⟨5, 6, 7⟩ (by decide)).2⟩

/-- **C5** (confirmed).  For every catalog glyph and every valid 8×8
window: each stored mean channel is the subset's truncated arithmetic
mean, none of the six unsigned subtractions underflows, and the
returned loss is exactly the sum of the six per-channel per-subset
contributions `Σ(xᵢ²) - n * mean²` (a non-negative integer). -/
theorem fit_loss_decomposition :
    ∀ e ∈ block_elements, ∀ win : Nat → rgb_color,
      (∀ i, i < 64 → (win i).valid) →
      ((mean_fg e.bitmap win).r =
          sumFg e.bitmap win (fun c => c.r) / numFg e.bitmap ∧
       (mean_fg e.bitmap win).g =
          sumFg e.bitmap win (fun c => c.g) / numFg e.bitmap ∧
       (mean_fg e.bitmap win).b =
          sumFg e.bitmap win (fun c => c.b) / numFg e.bitmap ∧
       (mean_bg e.bitmap win).r =
          sumBg e.bitmap win (fun c => c.r) / numBg e.bitmap ∧
       (mean_bg e.bitmap win).g =
          sumBg e.bitmap win (fun c => c.g) / numBg e.bitmap ∧
       (mean_bg e.bitmap win).b =
          sumBg e.bitmap win (fun c => c.b) / numBg e.bitmap) ∧
      (numFg e.bitmap * ((mean_fg e.bitmap win).r * (mean_fg e.bitmap win).r) ≤
          sumFg e.bitmap win (fun c => c.r * c.r) ∧
       numFg e.bitmap * ((mean_fg e.bitmap win).g * (mean_fg e.bitmap win).g) ≤
          sumFg e.bitmap win (fun c => c.g * c.g) ∧
       numFg e.bitmap * ((mean_fg e.bitmap win).b * (mean_fg e.bitmap win).b) ≤
          sumFg e.bitmap win (fun c => c.b * c.b) ∧
       numBg e.bitmap * ((mean_bg e.bitmap win).r * (mean_bg e.bitmap win).r) ≤
          sumBg e.bitmap win (fun c => c.r * c.r) ∧
       numBg e.bitmap * ((mean_bg e.bitmap win).g * (mean_bg e.bitmap win).g) ≤
          sumBg e.bitmap win (fun c => c.g * c.g) ∧
       numBg e.bitmap * ((mean_bg e.bitmap win).b * (mean_bg e.bitmap win).b) ≤
          sumBg e.bitmap win (fun c => c.b * c.b)) ∧
      (best_fg_bg e.bitmap win).loss =
        (sumFg e.bitmap win (fun c => c.r * c.r) -
          numFg e.bitmap * ((mean_fg e.bitmap win).r * (mean_fg e.bitmap win).r)) +
        (sumFg e.bitmap win (fun c => c.g * c.g) -
          numFg e.bitmap * ((mean_fg e.bitmap win).g * (mean_fg e.bitmap win).g)) +
        (sumFg e.bitmap win (fun c => c.b * c.b) -
          numFg e.bitmap * ((mean_fg e.bitmap win).b * (mean_fg e.bitmap win).b)) +
        (sumBg e.bitmap win (fun c => c.r * c.r) -
          numBg e.bitmap * ((mean_bg e.bitmap win).r * (mean_bg e.bitmap win).r)) +
        (sumBg e.bitmap win (fun c => c.g * c.g) -
          numBg e.bitmap * ((mean_bg e.bitmap win).g * (mean_bg e.bitmap win).g)) +
        (sumBg e.bitmap win (fun c => c.b * c.b) -
          numBg e.bitmap * ((mean_bg e.bitmap win).b * (mean_bg e.bitmap win).b)) := by
  intro e he win hw
  obtain ⟨hfg, hbg⟩ := catalog_counts_pos e he
  obtain ⟨hB, hC, _⟩ := fit_loss_exact e.bitmap win hw hfg hbg
  refine ⟨?_, hB, hC⟩
  have hchr : ∀ i, i < 64 → (win i).r ≤ 255 := fun i hi => by
    have := (hw i hi).1; omega
  have hchg : ∀ i, i < 64 → (win i).g ≤ 255 := fun i hi => by
    have := (hw i hi).2.1; omega
  have hchb : ∀ i, i < 64 → (win i).b ≤ 255 := fun i hi => by
    have := (hw i hi).2.2; omega
  have hSfr : sumFg e.bitmap win (fun c => c.r) ≤ 255 * numFg e.bitmap :=
    condSum_le_mul_count _ _ _ _ hchr
  have hSfg : sumFg e.bitmap win (fun c => c.g) ≤ 255 * numFg e.bitmap :=
    condSum_le_mul_count _ _ _ _ hchg
  have hSfb : sumFg e.bitmap win (fun c => c.b) ≤ 255 * numFg e.bitmap :=
    condSum_le_mul_count _ _ _ _ hchb
  have hSbr : sumBg e.bitmap win (fun c => c.r) ≤ 255 * numBg e.bitmap :=
    condSum_le_mul_count _ _ _ _ hchr
  have hSbg : sumBg e.bitmap win (fun c => c.g) ≤ 255 * numBg e.bitmap :=
    condSum_le_mul_count _ _ _ _ hchg
  have hSbb : sumBg e.bitmap win (fun c => c.b) ≤ 255 * numBg e.bitmap :=
    condSum_le_mul_count _ _ _ _ hchb
  exact ⟨mean_store_exact _ _ hfg hSfr, mean_store_exact _ _ hfg hSfg,
    mean_store_exact _ _ hfg hSfb, mean_store_exact _ _ hbg hSbr,
    mean_store_exact _ _ hbg hSbg, mean_store_exact _ _ hbg hSbb⟩

/-- Witness for `fit_loss_decomposition` at the first catalog entry and
the constant window `(9, 9, 9)`. -/
theorem fit_loss_decomposition_witness :
    (⟨4294967295, LOWER_HALF_UTF8⟩ : block_element) ∈ block_elements ∧
    (∀ i, i < 64 → ((fun _ => (⟨9, 9, 9⟩ : rgb_color)) i).valid) ∧
    (mean_fg (4294967295 : Nat) (fun _ => (⟨9, 9, 9⟩ : rgb_color))).r =
      sumFg 4294967295 (fun _ => (⟨9, 9, 9⟩ : rgb_color)) (fun c => c.r) /
        numFg 4294967295 :=
  ⟨by decide, fun i _ => show (⟨9, 9, 9⟩ : rgb_color).valid by decide,
    (fit_loss_decomposition ⟨4294967295, LOWER_HALF_UTF8⟩ (by decide) _
      (fun i _ => show (⟨9, 9, 9⟩ : rgb_color).valid by decide)).1.1⟩

/-- Each search step preserves state consistency, given that the list
being folded is the catalog's tail starting at the carried index. -/
theorem guess_fold_preserves (win : Nat → rgb_color) :
    ∀ (l : List block_element) (idx : Nat) (st : guess_state),
      (∀ j, j < l.length → l.getD j ⟨0, []⟩ = elemAt (idx + j)) →
      idx + l.length ≤ NUM_ELEMENTS →
      stOK win st →
      stOK win (guess_fold win l idx st) := by
  intro l
  induction l with
  | nil => intro idx st _ _ h; exact h
  | cons e t ih =>
    intro idx st hj hlen hok
    show stOK win (guess_fold win t (idx + 1) (guess_step win idx e st))
    have hlen' : idx + 1 + t.length ≤ NUM_ELEMENTS := by
      simp only [List.length_cons] at hlen; omega
    have hj' : ∀ j, j < t.length → t.getD j ⟨0, []⟩ = elemAt (idx + 1 + j) := by
      intro j hjt
      have := hj (j + 1) (by simp only [List.length_cons]; omega)
      simpa [Nat.add_assoc, Nat.add_comm 1 j] using this
    apply ih (idx + 1) _ hj' hlen'
    have he : e = elemAt idx := by
      have := hj 0 (by simp)
      simpa using this
    unfold guess_step
    split
    · exact ⟨idx, by simp only [List.length_cons] at hlen; omega, rfl,
        by rw [he]; rfl, by rw [he]; rfl⟩
    · exact hok

/-- **C10** (confirmed).  On any valid window the first candidate's loss
is at most `3 * 64 * 255²`, which is strictly below `INT_MAX`, so the
first iteration already overwrites the uninitialized best element and
the search always returns the glyph, foreground and background of one
of the 19 catalog entries. -/
theorem guess_always_selects (win : Nat → rgb_color)
    (hw : ∀ i, i < 64 → (win i).valid) :
    (best_fg_bg (4294967295 : Nat) win).loss ≤ 3 * (64 * 65025) ∧
    3 * (64 * 65025) < INT_MAX ∧
    ∃ k, k < NUM_ELEMENTS ∧
      guess_best_block_element win =
        some ((elemAt k).utf8, mean_fg (elemAt k).bitmap win,
          mean_bg (elemAt k).bitmap win) := by
  have hm0 := catalog_counts_pos ⟨4294967295, LOWER_HALF_UTF8⟩ (by decide)
  have hbound := (fit_loss_exact 4294967295 win hw hm0.1 hm0.2).2.2
  refine ⟨hbound, by norm_num [INT_MAX], ?_⟩
  have hbe : block_elements =
      (⟨4294967295, LOWER_HALF_UTF8⟩ : block_element) :: block_elements.tail := by
    rfl
  have hlt : (best_fg_bg (4294967295 : Nat) win).loss < INT_MAX :=
    lt_of_le_of_lt hbound (by norm_num [INT_MAX])
  have hstep : guess_step win 0 ⟨4294967295, LOWER_HALF_UTF8⟩
      ⟨INT_MAX, none, ⟨0, 0, 0⟩, ⟨0, 0, 0⟩⟩ =
      ⟨(best_fg_bg (4294967295 : Nat) win).loss, some 0,
        mean_fg 4294967295 win, mean_bg 4294967295 win⟩ := by
    unfold guess_step
    rw [if_pos hlt]
    rfl
  have hOK1 : stOK win ⟨(best_fg_bg (4294967295 : Nat) win).loss, some 0,
      mean_fg 4294967295 win, mean_bg 4294967295 win⟩ :=
    ⟨0, by norm_num [NUM_ELEMENTS], rfl, rfl, rfl⟩
  have hOK : stOK win (guess_fold win block_elements 0
      ⟨INT_MAX, none, ⟨0, 0, 0⟩, ⟨0, 0, 0⟩⟩) := by
    rw [hbe]
    show stOK win (guess_fold win block_elements.tail 1
      (guess_step win 0 ⟨4294967295, LOWER_HALF_UTF8⟩
        ⟨INT_MAX, none, ⟨0, 0, 0⟩, ⟨0, 0, 0⟩⟩))
    rw [hstep]
    exact guess_fold_preserves win block_elements.tail 1 _
      (by decide) (by decide) hOK1
  obtain ⟨k, hk, helem, hf, hb⟩ := hOK
  refine ⟨k, hk, ?_⟩
  unfold guess_best_block_element
  generalize hst : guess_fold win block_elements 0
    ⟨INT_MAX, none, ⟨0, 0, 0⟩, ⟨0, 0, 0⟩⟩ = st0 at helem hf hb ⊢
  cases st0 with
  | mk bl bel bf bb =>
    simp only at helem hf hb
    subst helem
    subst hf
    subst hb
    rfl

/-- Witness for `guess_always_selects` at the all-black window. -/
theorem guess_always_selects_witness :
    (∀ i, i < 64 → ((fun _ => (⟨0, 0, 0⟩ : rgb_color)) i).valid) ∧
    ∃ k, k < NUM_ELEMENTS ∧
      guess_best_block_element (fun _ => (⟨0, 0, 0⟩ : rgb_color)) =
        some ((elemAt k).utf8,
          mean_fg (elemAt k).bitmap (fun _ => (⟨0, 0, 0⟩ : rgb_color)),
          mean_bg (elemAt k).bitmap (fun _ => (⟨0, 0, 0⟩ : rgb_color))) :=
  ⟨fun i _ => show (⟨0, 0, 0⟩ : rgb_color).valid by decide,
    (guess_always_selects (fun _ => ⟨0, 0, 0⟩)
      (fun i _ => show (⟨0, 0, 0⟩ : rgb_color).valid by decide)).2.2⟩

/-- A conditional sum over a two-valued summand splits into the two
values times the respective intersection counts. -/
theorem condSum_ite_two (p : Nat → Bool) (P : Nat → Prop) [DecidablePred P]
    (a b n : Nat) :
    condSum p (fun i => if P i then a else b) n =
      a * condSum (fun i => p i && decide (P i)) (fun _ => 1) n +
      b * condSum (fun i => p i && !decide (P i)) (fun _ => 1) n := by
  induction n with
  | zero => simp [condSum]
  | succ n ih =>
    by_cases hq : P n <;> cases hp : p n <;>
      simp [condSum, hp, hq, ih] <;> ring

/-- Foreground channel sums of the `LOWER_HALF` mask on the vertical
edge window: the bottom half mixes 16 left-column and 16 right-column
pixels. -/
theorem edge_lower_half_sumFg (A B : rgb_color) (f : rgb_color → Nat) :
    sumFg (elemAt 0).bitmap (fun j => if j % 8 < 4 then A else B) f =
      f A * 16 + f B * 16 := by
  have h1 : condSum (fgp (elemAt 0).bitmap)
      (fun i => f (if i % 8 < 4 then A else B)) 64 =
      condSum (fgp (elemAt 0).bitmap) (fun i => if i % 8 < 4 then f A else f B)
        64 :=
    condSum_congr _ _ _ 64 (fun i _ _ => by split <;> rfl)
  have h2 := condSum_ite_two (fgp (elemAt 0).bitmap) (fun i => i % 8 < 4)
    (f A) (f B) 64
  have hc1 : condSum (fun i => fgp (elemAt 0).bitmap i && decide (i % 8 < 4))
      (fun _ => 1) 64 = 16 := by decide
  have hc2 : condSum (fun i => fgp (elemAt 0).bitmap i && !decide (i % 8 < 4))
      (fun _ => 1) 64 = 16 := by decide
  rw [hc1, hc2] at h2
  exact h1.trans h2

/-- For two distinct bytes, the mixed-subset loss contribution
`Σx² - n·mean²` of a 16/16 mix is strictly positive. -/
theorem half_mix_term_pos (a b : Nat) (ha : a ≤ 255) (hb : b ≤ 255)
    (hne : a ≠ b) :
    32 * ((a * 16 + b * 16) / 32 % 256 * ((a * 16 + b * 16) / 32 % 256)) <
      a * a * 16 + b * b * 16 := by
  have h1 : (a * 16 + b * 16) / 32 = (a + b) / 2 := by
    rw [show a * 16 + b * 16 = 16 * (a + b) by ring,
      show (32 : Nat) = 16 * 2 by norm_num,
      Nat.mul_div_mul_left _ _ (by norm_num)]
  rw [h1, Nat.mod_eq_of_lt (by omega : (a + b) / 2 < 256)]
  have h3 : 2 * ((a + b) / 2) ≤ a + b := by omega
  have h3i : (0 : Int) ≤ (a : Int) + b - 2 * (((a + b) / 2 : Nat) : Int) := by
    have : ((2 * ((a + b) / 2) : Nat) : Int) ≤ ((a + b : Nat) : Int) := by
      exact_mod_cast h3
    push_cast at this
    omega
  have h4 : (0 : Int) ≤ (a : Int) + b + 2 * (((a + b) / 2 : Nat) : Int) := by
    positivity
  have hnz : ((a : Int) - b) ^ 2 ≥ 1 := by
    have hne2 : (a : Int) - b ≠ 0 := sub_ne_zero.mpr (by exact_mod_cast hne)
    rcases lt_or_gt_of_ne hne2 with h | h <;> nlinarith
  have key : (32 : Int) * ((((a + b) / 2 : Nat) : Int) *
      (((a + b) / 2 : Nat) : Int)) + 1 ≤ (a : Int) * a * 16 + (b : Int) * b * 16 := by
    nlinarith [h3i, h4, hnz, mul_nonneg h3i h4]
  have hfin : ((32 * ((a + b) / 2 * ((a + b) / 2)) : Nat) : Int) <
      ((a * a * 16 + b * b * 16 : Nat) : Int) := by
    push_cast
    push_cast at key
    linarith [key]
  exact_mod_cast hfin

/-- The vertical edge window with distinct valid colors has a strictly
positive loss under the `LOWER_HALF` mask (the first catalog entry). -/
theorem edge_lower_half_loss_pos (A B : rgb_color) (hA : A.valid) (hB : B.valid)
    (hne : A ≠ B) :
    0 < fit_loss (elemAt 0).bitmap (fun j => if j % 8 < 4 then A else B) := by
  have hw : ∀ i, i < 64 →
      ((fun j => if j % 8 < 4 then A else B) i).valid := fun i _ => by
    by_cases h : i % 8 < 4 <;> simp only [h, if_true, if_false] <;> assumption
  have hfg : 0 < numFg (elemAt 0).bitmap := by decide
  have hbg : 0 < numBg (elemAt 0).bitmap := by decide
  obtain ⟨hunder, heq, _⟩ :=
    fit_loss_exact (elemAt 0).bitmap (fun j => if j % 8 < 4 then A else B) hw
      hfg hbg
  have hnf : numFg (elemAt 0).bitmap = 32 := by decide
  have hchannel : A.r ≠ B.r ∨ A.g ≠ B.g ∨ A.b ≠ B.b := by
    by_contra h
    push_neg at h
    exact hne (by cases A; cases B; simp_all)
  rcases hchannel with hch | hch | hch
  · have hmean : (mean_fg (elemAt 0).bitmap
        (fun j => if j % 8 < 4 then A else B)).r =
        (A.r * 16 + B.r * 16) / 32 % 256 := by
      show sumFg (elemAt 0).bitmap (fun j => if j % 8 < 4 then A else B)
        (fun c => c.r) / numFg (elemAt 0).bitmap % 256 = _
      rw [edge_lower_half_sumFg A B (fun c => c.r), hnf]
    have hlt : numFg (elemAt 0).bitmap *
        ((mean_fg (elemAt 0).bitmap (fun j => if j % 8 < 4 then A else B)).r *
         (mean_fg (elemAt 0).bitmap (fun j => if j % 8 < 4 then A else B)).r) <
        sumFg (elemAt 0).bitmap (fun j => if j % 8 < 4 then A else B)
          (fun c => c.r * c.r) := by
      rw [hnf, hmean, edge_lower_half_sumFg A B (fun c => c.r * c.r)]
      exact half_mix_term_pos A.r B.r (by have := hA.1; omega)
        (by have := hB.1; omega) hch
    omega
  · have hmean : (mean_fg (elemAt 0).bitmap
        (fun j => if j % 8 < 4 then A else B)).g =
        (A.g * 16 + B.g * 16) / 32 % 256 := by
      show sumFg (elemAt 0).bitmap (fun j => if j % 8 < 4 then A else B)
        (fun c => c.g) / numFg (elemAt 0).bitmap % 256 = _
      rw [edge_lower_half_sumFg A B (fun c => c.g), hnf]
    have hlt : numFg (elemAt 0).bitmap *
        ((mean_fg (elemAt 0).bitmap (fun j => if j % 8 < 4 then A else B)).g *
         (mean_fg (elemAt 0).bitmap (fun j => if j % 8 < 4 then A else B)).g) <
        sumFg (elemAt 0).bitmap (fun j => if j % 8 < 4 then A else B)
          (fun c => c.g * c.g) := by
      rw [hnf, hmean, edge_lower_half_sumFg A B (fun c => c.g * c.g)]
      exact half_mix_term_pos A.g B.g (by have := hA.2.1; omega)
        (by have := hB.2.1; omega) hch
    omega
  · have hmean : (mean_fg (elemAt 0).bitmap
        (fun j => if j % 8 < 4 then A else B)).b =
        (A.b * 16 + B.b * 16) / 32 % 256 := by
      show sumFg (elemAt 0).bitmap (fun j => if j % 8 < 4 then A else B)
        (fun c => c.b) / numFg (elemAt 0).bitmap % 256 = _
      rw [edge_lower_half_sumFg A B (fun c => c.b), hnf]
    have hlt : numFg (elemAt 0).bitmap *
        ((mean_fg (elemAt 0).bitmap (fun j => if j % 8 < 4 then A else B)).b *
         (mean_fg (elemAt 0).bitmap (fun j => if j % 8 < 4 then A else B)).b) <
        sumFg (elemAt 0).bitmap (fun j => if j % 8 < 4 then A else B)
          (fun c => c.b * c.b) := by
      rw [hnf, hmean, edge_lower_half_sumFg A B (fun c => c.b * c.b)]
      exact half_mix_term_pos A.b B.b (by have := hA.2.2; omega)
        (by have := hB.2.2; omega) hch
    omega

/-- Unsigned subtraction of identical products (in either order) wraps
to zero. -/
theorem wrapSub_mul_comm (a n : Nat) : wrapSub (a * n) (n * a) = 0 := by
  rw [Nat.mul_comm]; exact wrapSub_self _

/-- Foreground channel sums of the `LEFT_HALF` mask on the vertical edge
window: the foreground is exactly the 32 left-column pixels. -/
theorem edge_left_half_sumFg (A B : rgb_color) (f : rgb_color → Nat) :
    sumFg (elemAt 1).bitmap (fun j => if j % 8 < 4 then A else B) f =
      f A * 32 := by
  have hsub : ∀ i, i < 64 → fgp (elemAt 1).bitmap i = true → i % 8 < 4 := by
    decide
  have h1 : condSum (fgp (elemAt 1).bitmap)
      (fun i => f (if i % 8 < 4 then A else B)) 64 =
      condSum (fgp (elemAt 1).bitmap) (fun _ => f A) 64 :=
    condSum_congr _ _ _ 64 (fun i hi hp => by rw [if_pos (hsub i hi hp)])
  have h2 : condSum (fgp (elemAt 1).bitmap) (fun _ => f A) 64 =
      f A * condSum (fgp (elemAt 1).bitmap) (fun _ => 1) 64 :=
    condSum_const _ _ _
  have h3 : condSum (fgp (elemAt 1).bitmap) (fun _ => (1 : Nat)) 64 = 32 := by
    decide
  rw [h3] at h2
  exact h1.trans h2

/-- Background channel sums of the `LEFT_HALF` mask on the vertical edge
window: the background is exactly the 32 right-column pixels. -/
theorem edge_left_half_sumBg (A B : rgb_color) (f : rgb_color → Nat) :
    sumBg (elemAt 1).bitmap (fun j => if j % 8 < 4 then A else B) f =
      f B * 32 := by
  have hsub : ∀ i, i < 64 → (!fgp (elemAt 1).bitmap i) = true →
      ¬i % 8 < 4 := by decide
  have h1 : condSum (fun i => !fgp (elemAt 1).bitmap i)
      (fun i => f (if i % 8 < 4 then A else B)) 64 =
      condSum (fun i => !fgp (elemAt 1).bitmap i) (fun _ => f B) 64 :=
    condSum_congr _ _ _ 64 (fun i hi hp => by rw [if_neg (hsub i hi hp)])
  have h2 : condSum (fun i => !fgp (elemAt 1).bitmap i) (fun _ => f B) 64 =
      f B * condSum (fun i => !fgp (elemAt 1).bitmap i) (fun _ => 1) 64 :=
    condSum_const _ _ _
  have h3 : condSum (fun i => !fgp (elemAt 1).bitmap i) (fun _ => (1 : Nat)) 64 =
      32 := by decide
  rw [h3] at h2
  exact h1.trans h2

/-- On the vertical edge window the `LEFT_HALF` fit is exact: loss 0,
foreground mean `A`, background mean `B`. -/
theorem edge_left_half_fit (A B : rgb_color) (hA : A.valid) (hB : B.valid) :
    best_fg_bg (elemAt 1).bitmap (fun j => if j % 8 < 4 then A else B) =
      ⟨0, A, B⟩ := by
  have hnf : numFg (elemAt 1).bitmap = 32 := by decide
  have hnb : numBg (elemAt 1).bitmap = 32 := by decide
  have hmf : mean_fg (elemAt 1).bitmap (fun j => if j % 8 < 4 then A else B) =
      A := by
    unfold mean_fg
    simp only [edge_left_half_sumFg A B, hnf]
    rw [Nat.mul_div_cancel _ (by norm_num : 0 < 32),
      Nat.mul_div_cancel _ (by norm_num : 0 < 32),
      Nat.mul_div_cancel _ (by norm_num : 0 < 32),
      Nat.mod_eq_of_lt hA.1, Nat.mod_eq_of_lt hA.2.1, Nat.mod_eq_of_lt hA.2.2]
  have hmb : mean_bg (elemAt 1).bitmap (fun j => if j % 8 < 4 then A else B) =
      B := by
    unfold mean_bg
    simp only [edge_left_half_sumBg A B, hnb]
    rw [Nat.mul_div_cancel _ (by norm_num : 0 < 32),
      Nat.mul_div_cancel _ (by norm_num : 0 < 32),
      Nat.mul_div_cancel _ (by norm_num : 0 < 32),
      Nat.mod_eq_of_lt hB.1, Nat.mod_eq_of_lt hB.2.1, Nat.mod_eq_of_lt hB.2.2]
  have hloss : fit_loss (elemAt 1).bitmap
      (fun j => if j % 8 < 4 then A else B) = 0 := by
    unfold fit_loss lossTerm
    rw [hmf, hmb]
    simp only [edge_left_half_sumFg A B, edge_left_half_sumBg A B, hnf, hnb]
    simp [wrapSub_mul_comm]
  unfold best_fg_bg
  rw [hloss, hmf, hmb]

/-- Two windows that agree on indices 0–63 produce the same fit. -/
theorem best_fg_bg_congr (bm : Nat) (win win' : Nat → rgb_color)
    (h : ∀ i, i < 64 → win i = win' i) :
    best_fg_bg bm win = best_fg_bg bm win' := by
  have hsr : condSum (fgp bm) (fun i => (win i).r) 64 =
      condSum (fgp bm) (fun i => (win' i).r) 64 :=
    condSum_congr _ _ _ 64 fun i hi _ => by rw [h i hi]
  have hsg : condSum (fgp bm) (fun i => (win i).g) 64 =
      condSum (fgp bm) (fun i => (win' i).g) 64 :=
    condSum_congr _ _ _ 64 fun i hi _ => by rw [h i hi]
  have hsb : condSum (fgp bm) (fun i => (win i).b) 64 =
      condSum (fgp bm) (fun i => (win' i).b) 64 :=
    condSum_congr _ _ _ 64 fun i hi _ => by rw [h i hi]
  have hsr2 : condSum (fgp bm) (fun i => (win i).r * (win i).r) 64 =
      condSum (fgp bm) (fun i => (win' i).r * (win' i).r) 64 :=
    condSum_congr _ _ _ 64 fun i hi _ => by rw [h i hi]
  have hsg2 : condSum (fgp bm) (fun i => (win i).g * (win i).g) 64 =
      condSum (fgp bm) (fun i => (win' i).g * (win' i).g) 64 :=
    condSum_congr _ _ _ 64 fun i hi _ => by rw [h i hi]
  have hsb2 : condSum (fgp bm) (fun i => (win i).b * (win i).b) 64 =
      condSum (fgp bm) (fun i => (win' i).b * (win' i).b) 64 :=
    condSum_congr _ _ _ 64 fun i hi _ => by rw [h i hi]
  have htr : condSum (fun i => !fgp bm i) (fun i => (win i).r) 64 =
      condSum (fun i => !fgp bm i) (fun i => (win' i).r) 64 :=
    condSum_congr _ _ _ 64 fun i hi _ => by rw [h i hi]
  have htg : condSum (fun i => !fgp bm i) (fun i => (win i).g) 64 =
      condSum (fun i => !fgp bm i) (fun i => (win' i).g) 64 :=
    condSum_congr _ _ _ 64 fun i hi _ => by rw [h i hi]
  have htb : condSum (fun i => !fgp bm i) (fun i => (win i).b) 64 =
      condSum (fun i => !fgp bm i) (fun i => (win' i).b) 64 :=
    condSum_congr _ _ _ 64 fun i hi _ => by rw [h i hi]
  have htr2 : condSum (fun i => !fgp bm i) (fun i => (win i).r * (win i).r) 64 =
      condSum (fun i => !fgp bm i) (fun i => (win' i).r * (win' i).r) 64 :=
    condSum_congr _ _ _ 64 fun i hi _ => by rw [h i hi]
  have htg2 : condSum (fun i => !fgp bm i) (fun i => (win i).g * (win i).g) 64 =
      condSum (fun i => !fgp bm i) (fun i => (win' i).g * (win' i).g) 64 :=
    condSum_congr _ _ _ 64 fun i hi _ => by rw [h i hi]
  have htb2 : condSum (fun i => !fgp bm i) (fun i => (win i).b * (win i).b) 64 =
      condSum (fun i => !fgp bm i) (fun i => (win' i).b * (win' i).b) 64 :=
    condSum_congr _ _ _ 64 fun i hi _ => by rw [h i hi]
  unfold best_fg_bg fit_loss lossTerm mean_fg mean_bg sumFg sumBg WINDOW_SZ
  rw [hsr, hsg, hsb, hsr2, hsg2, hsb2, htr, htg, htb, htr2, htg2, htb2]

/-- Two windows that agree on indices 0–63 produce the same glyph
search outcome. -/
theorem guess_congr (win win' : Nat → rgb_color)
    (h : ∀ i, i < 64 → win i = win' i) :
    guess_best_block_element win = guess_best_block_element win' := by
  have hstep : ∀ idx e st, guess_step win idx e st = guess_step win' idx e st :=
    fun idx e st => by
      unfold guess_step
      rw [best_fg_bg_congr e.bitmap win win' h]
  have hfold : ∀ (l : List block_element) (idx : Nat) (st : guess_state),
      guess_fold win l idx st = guess_fold win' l idx st := by
    intro l
    induction l with
    | nil => intro idx st; rfl
    | cons e t ih =>
      intro idx st
      show guess_fold win t (idx + 1) (guess_step win idx e st) =
        guess_fold win' t (idx + 1) (guess_step win' idx e st)
      rw [hstep idx e st]
      exact ih _ _
  unfold guess_best_block_element
  rw [hfold block_elements 0 _]

/-- On the canonical vertical edge window the search returns the
`LEFT_HALF` glyph with foreground `A` and background `B`. -/
theorem guess_edge (A B : rgb_color) (hA : A.valid) (hB : B.valid)
    (hne : A ≠ B) :
    guess_best_block_element (fun j => if j % 8 < 4 then A else B) =
      some ((elemAt 1).utf8, A, B) := by
  have hw : ∀ i, i < 64 →
      ((fun j => if j % 8 < 4 then A else B) i).valid := fun i _ => by
    by_cases h : i % 8 < 4 <;> simp only [h, if_true, if_false] <;> assumption
  have hfit1 : best_fg_bg (elemAt 1).bitmap
      (fun j => if j % 8 < 4 then A else B) = ⟨0, A, B⟩ :=
    edge_left_half_fit A B hA hB
  have hpos : 0 < fit_loss (elemAt 0).bitmap
      (fun j => if j % 8 < 4 then A else B) :=
    edge_lower_half_loss_pos A B hA hB hne
  have hbound := (fit_loss_exact (elemAt 0).bitmap
    (fun j => if j % 8 < 4 then A else B) hw (by decide) (by decide)).2.2
  have hlt0 : (best_fg_bg (4294967295 : Nat)
      (fun j => if j % 8 < 4 then A else B)).loss < INT_MAX :=
    lt_of_le_of_lt hbound (by norm_num [INT_MAX])
  have hbe : block_elements =
      (⟨4294967295, LOWER_HALF_UTF8⟩ : block_element) ::
      (⟨17361641481138401520, [0xe2, 0x96, 0x8c]⟩ : block_element) ::
      block_elements.tail.tail := by rfl
  have hstep0 : guess_step (fun j => if j % 8 < 4 then A else B) 0
      ⟨4294967295, LOWER_HALF_UTF8⟩ ⟨INT_MAX, none, ⟨0, 0, 0⟩, ⟨0, 0, 0⟩⟩ =
      ⟨fit_loss (elemAt 0).bitmap (fun j => if j % 8 < 4 then A else B), some 0,
        mean_fg (elemAt 0).bitmap (fun j => if j % 8 < 4 then A else B),
        mean_bg (elemAt 0).bitmap (fun j => if j % 8 < 4 then A else B)⟩ := by
    unfold guess_step
    rw [if_pos hlt0]
    rfl
  have hpos' : ((⟨0, A, B⟩ : fit_result)).loss <
      ((⟨fit_loss (elemAt 0).bitmap (fun j => if j % 8 < 4 then A else B), some 0,
        mean_fg (elemAt 0).bitmap (fun j => if j % 8 < 4 then A else B),
        mean_bg (elemAt 0).bitmap (fun j => if j % 8 < 4 then A else B)⟩ :
        guess_state)).best_loss := hpos
  have hstep1 : guess_step (fun j => if j % 8 < 4 then A else B) 1
      ⟨17361641481138401520, [0xe2, 0x96, 0x8c]⟩
      ⟨fit_loss (elemAt 0).bitmap (fun j => if j % 8 < 4 then A else B), some 0,
        mean_fg (elemAt 0).bitmap (fun j => if j % 8 < 4 then A else B),
        mean_bg (elemAt 0).bitmap (fun j => if j % 8 < 4 then A else B)⟩ =
      ⟨0, some 1, A, B⟩ := by
    unfold guess_step
    have hr : best_fg_bg
        ((⟨17361641481138401520, [0xe2, 0x96, 0x8c]⟩ : block_element)).bitmap
        (fun j => if j % 8 < 4 then A else B) = ⟨0, A, B⟩ := hfit1
    rw [hr, if_pos hpos']
  have hstate : guess_fold (fun j => if j % 8 < 4 then A else B) block_elements
      0 ⟨INT_MAX, none, ⟨0, 0, 0⟩, ⟨0, 0, 0⟩⟩ = ⟨0, some 1, A, B⟩ := by
    rw [hbe]
    show guess_fold (fun j => if j % 8 < 4 then A else B)
      ((⟨17361641481138401520, [0xe2, 0x96, 0x8c]⟩ : block_element) ::
        block_elements.tail.tail) 1
      (guess_step (fun j => if j % 8 < 4 then A else B) 0
        ⟨4294967295, LOWER_HALF_UTF8⟩
        ⟨INT_MAX, none, ⟨0, 0, 0⟩, ⟨0, 0, 0⟩⟩) = ⟨0, some 1, A, B⟩
    rw [hstep0]
    show guess_fold (fun j => if j % 8 < 4 then A else B)
      block_elements.tail.tail 2
      (guess_step (fun j => if j % 8 < 4 then A else B) 1
        ⟨17361641481138401520, [0xe2, 0x96, 0x8c]⟩
        ⟨fit_loss (elemAt 0).bitmap (fun j => if j % 8 < 4 then A else B),
          some 0,
          mean_fg (elemAt 0).bitmap (fun j => if j % 8 < 4 then A else B),
          mean_bg (elemAt 0).bitmap (fun j => if j % 8 < 4 then A else B)⟩) =
      ⟨0, some 1, A, B⟩
    rw [hstep1]
    exact guess_fold_of_not_lt (fun j => if j % 8 < 4 then A else B)
      block_elements.tail.tail 2 ⟨0, some 1, A, B⟩
      fun e _ => Nat.not_lt_zero _
  unfold guess_best_block_element
  rw [hstate]
  rfl

/-- **C3** (confirmed).  For every 8×8 window whose left 4 columns are
uniformly a valid color `A` and whose right 4 columns are uniformly a
different valid color `B`, the block fit selects the glyph whose
coverage mask is the left/right half split (`LEFT_HALF`, U+258C, UTF-8
`e2 96 8c`), with total loss zero, foreground mean `A` and background
mean `B`. -/
theorem vertical_edge_fit (A B : rgb_color) (win : Nat → rgb_color)
    (hA : A.valid) (hB : B.valid) (hne : A ≠ B)
    (hwin : ∀ i, i < 64 → win i = if i % 8 < 4 then A else B) :
    best_fg_bg (elemAt LEFT_HALF).bitmap win = ⟨0, A, B⟩ ∧
    (elemAt LEFT_HALF).utf8 = [0xe2, 0x96, 0x8c] ∧
    guess_best_block_element win = some ((elemAt LEFT_HALF).utf8, A, B) := by
  have h1 : best_fg_bg (elemAt LEFT_HALF).bitmap win =
      best_fg_bg (elemAt 1).bitmap (fun j => if j % 8 < 4 then A else B) :=
    best_fg_bg_congr _ _ _ hwin
  have h2 : guess_best_block_element win =
      guess_best_block_element (fun j => if j % 8 < 4 then A else B) :=
    guess_congr _ _ hwin
  exact ⟨h1.trans (edge_left_half_fit A B hA hB), rfl,
    h2.trans (guess_edge A B hA hB hne)⟩

/-- Witness for `vertical_edge_fit` at `A = (1,2,3)`, `B = (4,5,6)`. -/
theorem vertical_edge_fit_witness :
    (⟨1, 2, 3⟩ : rgb_color).valid ∧ (⟨4, 5, 6⟩ : rgb_color).valid ∧
    (⟨1, 2, 3⟩ : rgb_color) ≠ ⟨4, 5, 6⟩ ∧
    guess_best_block_element
      (fun j => if j % 8 < 4 then (⟨1, 2, 3⟩ : rgb_color) else ⟨4, 5, 6⟩) =
      some ((elemAt LEFT_HALF).utf8, ⟨1, 2, 3⟩, ⟨4, 5, 6⟩) :=
  ⟨by decide, by decide, by decide,
    (vertical_edge_fit ⟨1, 2, 3⟩ ⟨4, 5, 6⟩ _ (by decide) (by decide) (by decide)
      (fun i _ => rfl)).2.2⟩

/-- **C1** counterexample.  The claimed per-row newline placement is
wrong: for a 1-column 2-row plain render the emitted stream differs
from the stream that puts a newline after each row's reset (the code
emits a single newline after the whole frame). -/
theorem newline_per_row_false :
    write_plain 1 2 1 2 (fun _ => 0) 3 false ≠
      claim_rowwise_frame 1 2 1 2
        (fun y x => plain_cell false (get_rgb (fun _ => 0) (y * 3 + 3 * x))) := by
  decide

/-- **C1** (corrected).  For every strategy and geometry with content
dimensions at most the terminal dimensions (where floor division and
the C truncating division coincide), the emitted stream is exactly,
row by row: one cursor-positioning sequence whose arguments are the
centering offsets `(terminal_dim - content_dim) / 2` plus the 0-based
row index / the first-column offset, then the row's cells left to
right (color sequence(s) then glyph), then one color reset — and a
single newline after the final row's reset, not one per row. -/
theorem frame_structure_centered (dwidth dheight : Int) (swidth sheight : Nat)
    (source : Nat → Nat) (source_stride : Nat) (term256 : Bool)
    (hsw : (swidth : Int) ≤ dwidth) (hsh : (sheight : Int) ≤ dheight) :
    write_plain dwidth dheight swidth sheight source source_stride term256 =
      spec_centered_frame dwidth dheight swidth sheight
        (fun y x => plain_cell term256
          (get_rgb source (y * source_stride + 3 * x))) ∧
    write_half_blocks dwidth dheight swidth sheight source source_stride
        term256 =
      spec_centered_frame dwidth dheight swidth sheight
        (fun ry x => half_cell term256
          (get_rgb source (2 * ry * source_stride + 3 * x))
          (get_rgb source ((2 * ry + 1) * source_stride + 3 * x))) ∧
    write_all_blocks dwidth dheight swidth sheight source source_stride
        term256 =
      spec_centered_frame dwidth dheight swidth sheight
        (fun ry x => blocks_cell term256 (winAt source source_stride ry x)) := by
  have htx : Int.tdiv (dwidth - swidth) 2 = Int.fdiv (dwidth - swidth) 2 := by
    rw [Int.tdiv_eq_ediv (by omega) (by norm_num),
      Int.fdiv_eq_ediv _ (by norm_num)]
  have hty : Int.tdiv (dheight - sheight) 2 = Int.fdiv (dheight - sheight) 2 := by
    rw [Int.tdiv_eq_ediv (by omega) (by norm_num),
      Int.fdiv_eq_ediv _ (by norm_num)]
  refine ⟨?_, ?_, ?_⟩
  · simp only [write_plain, spec_centered_frame, spec_row, htx, hty,
      seqOut_eq_join]
    rfl
  · simp only [write_half_blocks, spec_centered_frame, spec_row, htx, hty,
      seqOut_eq_join]
    rfl
  · simp only [write_all_blocks, spec_centered_frame, spec_row, htx, hty,
      seqOut_eq_join]
    rfl

/-- Witness for `frame_structure_centered` on a 4×3 terminal with a
2×1-cell content area over an all-zero source buffer. -/
theorem frame_structure_centered_witness :
    ((2 : Nat) : Int) ≤ 4 ∧ ((1 : Nat) : Int) ≤ 3 ∧
    write_plain 4 3 2 1 (fun _ => 0) 6 false =
      spec_centered_frame 4 3 2 1
        (fun y x => plain_cell false
          (get_rgb (fun _ => 0) (y * 6 + 3 * x))) :=
  ⟨by decide, by decide,
    (frame_structure_centered 4 3 2 1 (fun _ => 0) 6 false (by decide)
      (by decide)).1⟩

/-- **C2** (confirmed).  Half-block strategy, true-color mode, on a
1-column 2-row source whose top pixel is `(B,G,R) = (10,20,30)` and
bottom pixel `(40,50,60)`: the cell consists of the background escape
`ESC[48;2;30;20;10m` (nothing with a `38;2` prefix precedes it), then
the foreground escape `ESC[38;2;60;50;40m`, then the UTF-8 bytes of
U+2584, then the color reset. -/
theorem half_block_cell_bytes :
    write_half_blocks 1 1 1 1 (fun i => [10, 20, 30, 40, 50, 60].getD i 0) 3 false =
      gotoxy 0 0 ++
      (ESC_COLOR_BG ++ [59, 51, 48] ++ [59, 50, 48] ++ [59, 49, 48] ++ [109]) ++
      (ESC_COLOR_FG ++ [59, 54, 48] ++ [59, 53, 48] ++ [59, 52, 48] ++ [109]) ++
      LOWER_HALF_UTF8 ++ ESC_CLEAR_COLORS ++ [10] := by decide

end VoTct
